import Mathlib

/-!
# ChronoAI aggregation engine — shallow embedding

This file embeds the pure aggregation/reconciliation engine of the ChronoAI
repository (the `displayProjects` memo in `App` plus the `handleUpdateProject`
mapping mutator) into Lean 4 and proves the specification's claims about it.

JavaScript `Record<string, T>` objects are embedded as insertion-ordered
association lists `List (String × T)`: property read is first-match lookup,
property write updates an existing key in place and appends a fresh key at the
end, and `Object.keys`/`Object.entries` iteration is list order.  JS string
falsiness (`x || y` on strings) is embedded by testing for the empty string.
Durations (JS numbers) are embedded as rationals.
-/

namespace ChronoAI

/-- Structure `AnalyzedEvent` from `types.ts`: one detected calendar block. -/
structure AnalyzedEvent where
  title : String
  durationHours : ℚ
  color : String
deriving DecidableEq, Repr

/-- A value of the `userMappings` record: `{ name, color }`. -/
structure MapEntry where
  name : String
  color : String
deriving DecidableEq, Repr

/-- A value of the `aggregatedByOriginal` record: `{ duration, color }`. -/
structure OrigData where
  duration : ℚ
  color : String
deriving DecidableEq, Repr

/-- A value of the `aggregatedByDisplay` record:
`{ duration, color, originalNames }`. -/
structure DispData where
  duration : ℚ
  color : String
  originalNames : List String
deriving DecidableEq, Repr

/-- Structure `Project` from `types.ts`: one output row of the engine. -/
structure Project where
  name : String
  duration : ℚ
  color : String
  originalNames : List String
deriving DecidableEq, Repr

/-- Structure `CalendarImage` from `types.ts` (the engine only reads `events`). -/
structure CalendarImage where
  id : String
  base64 : String
  events : List AnalyzedEvent
deriving DecidableEq, Repr

/-- JS `a || b` on strings: the empty string is falsy. -/
def jsOr (a b : String) : String :=
  if a = "" then b else a

/-- JS property read `m[k]` on a record embedded as an association list. -/
def lookupKey {α : Type} (m : List (String × α)) (k : String) : Option α :=
  match m with
  | [] => none
  | p :: t => if p.1 = k then some p.2 else lookupKey t k

/-- JS property write `m[k] = v`: update in place, or append a fresh key. -/
def setKey {α : Type} (m : List (String × α)) (k : String) (v : α) :
    List (String × α) :=
  match m with
  | [] => [(k, v)]
  | p :: t => if p.1 = k then (k, v) :: t else p :: setKey t k v

/-- JS `String.prototype.includes` on character lists. -/
def listContainsSub (pat : List Char) : List Char → Bool
  | [] => pat.isEmpty
  | c :: t => pat.isPrefixOf (c :: t) || listContainsSub pat t

/-- JS `event.title.toLowerCase().includes(keyword.toLowerCase())`.  JS
`toLowerCase` is full-Unicode, so it is embedded as an explicit parameter
`lower`: every statement below is proved for an arbitrary lowercasing
function and therefore holds for the real one.  The substring test runs on
the character lists of the lowercased strings. -/
def titleMatches (lower : String → String) (title keyword : String) : Bool :=
  listContainsSub (lower keyword).data (lower title).data

/-- Restriction of JS `toLowerCase` to the ASCII range: lowercases ASCII
letters and leaves every other character unchanged.  JS `toLowerCase` agrees
with it on the all-ASCII strings appearing in the concrete instances below,
which use it to instantiate the `lower` parameter. -/
def asciiLower (s : String) : String :=
  ⟨s.data.map Char.toLower⟩

/-- Stage 1 on one title: `Object.keys(projectRules).find(...)` followed by
`matchingRuleKey ? { ...event, title: projectRules[matchingRuleKey] } : event`.
The found key is tested for JS truthiness: a rule whose keyword is the empty
string is found by `find` (the empty string is a substring of every title)
but is never applied, because `""` is falsy. -/
def resolveTitle (lower : String → String) (rules : List (String × String))
    (title : String) : String :=
  match rules.find? (fun r => titleMatches lower title r.1) with
  | some r => if r.1 = "" then title else r.2
  | none => title

/-- Modelled from the spec: Stage-1 resolution as §4.1 words it — "if one or
more match, the event's effective label becomes the rule's target project
label" — with no truthiness proviso on the matched keyword.  It exists only
to state what the frozen claims assert about rule resolution, for comparison
with the code's `resolveTitle`. -/
def specResolveTitle (lower : String → String)
    (rules : List (String × String)) (title : String) : String :=
  match rules.find? (fun r => titleMatches lower title r.1) with
  | some r => r.2
  | none => title

/-- Stage 1 (`processedEvents`): rewrite each title through the rules. -/
def processEvents (lower : String → String) (rules : List (String × String))
    (events : List AnalyzedEvent) : List AnalyzedEvent :=
  events.map (fun e => { e with title := resolveTitle lower rules e.title })

/-- One iteration of the `processedEvents.forEach` loop building
`aggregatedByOriginal` (Stages 2 and 3): skip ignored titles, create the
entry from the first surviving event (duration starts at `0` then receives
`+= durationHours`, the color is that first event's color), and on later
events only add the duration. -/
def stage3Step (ignored : List String) (acc : List (String × OrigData))
    (e : AnalyzedEvent) : List (String × OrigData) :=
  if ignored.contains e.title then acc
  else
    match lookupKey acc e.title with
    | none => setKey acc e.title ⟨e.durationHours, e.color⟩
    | some d => setKey acc e.title ⟨d.duration + e.durationHours, d.color⟩

/-- Record `aggregatedByOriginal` built from the processed events. -/
def stage3 (ignored : List String) (events : List AnalyzedEvent) :
    List (String × OrigData) :=
  events.foldl (stage3Step ignored) []

/-- JS `mapping?.name || originalName`. -/
def displayNameOf (m : List (String × MapEntry)) (k : String) : String :=
  match lookupKey m k with
  | some e => jsOr e.name k
  | none => k

/-- JS `mapping?.color || data.color`. -/
def displayColorOf (m : List (String × MapEntry)) (k : String)
    (carried : String) : String :=
  match lookupKey m k with
  | some e => jsOr e.color carried
  | none => carried

/-- JS `if (!xs.includes(x)) xs.push(x)`. -/
def insName (ns : List String) (k : String) : List String :=
  if ns.contains k then ns else ns ++ [k]

/-- One iteration of the `Object.entries(aggregatedByOriginal).forEach` loop
building `aggregatedByDisplay` (Stage 4): group by display name, add the
duration, overwrite the group color with this key's display color (last one
wins), and push the original key if not already recorded. -/
def stage4Step (m : List (String × MapEntry)) (acc : List (String × DispData))
    (p : String × OrigData) : List (String × DispData) :=
  match lookupKey acc (displayNameOf m p.1) with
  | none =>
      setKey acc (displayNameOf m p.1)
        ⟨p.2.duration, displayColorOf m p.1 p.2.color, [p.1]⟩
  | some g =>
      setKey acc (displayNameOf m p.1)
        ⟨g.duration + p.2.duration, displayColorOf m p.1 p.2.color,
          insName g.originalNames p.1⟩

/-- Record `aggregatedByDisplay` built from `aggregatedByOriginal`. -/
def stage4 (m : List (String × MapEntry)) (orig : List (String × OrigData)) :
    List (String × DispData) :=
  orig.foldl (stage4Step m) []

/-- JS `Object.entries(aggregatedByDisplay).map(([name, data]) => (...))`: label each record entry. -/
def finalProjects (disp : List (String × DispData)) : List Project :=
  disp.map (fun p => ⟨p.1, p.2.duration, p.2.color, p.2.originalNames⟩)

/-- The fixed fallback palette `COLORS`. -/
def COLORS : List String :=
  ["#0088FE", "#00C49F", "#FFBB28", "#FF8042", "#AF19FF", "#FF1969",
   "#19D4FF", "#FFD700", "#32CD32", "#FF4500", "#9932CC", "#FF69B4"]

/-- JS `!userMappings[p.originalNames[0]]?.color && p.color === '#808080'`:
eligibility for the Stage-5 palette fallback. -/
def eligibleB (m : List (String × MapEntry)) (p : Project) : Bool :=
  (match p.originalNames.head? with
   | some k =>
     match lookupKey m k with
     | some e => e.color == ""
     | none => true
   | none => true) && p.color == "#808080"

/-- The Stage-5 `while` loop: advance `colorIndex` past palette entries
already in `usedColors`. -/
def skipUsed (used : List String) (idx : Nat) : Nat :=
  if h : idx < COLORS.length then
    if used.contains (COLORS.get ⟨idx, h⟩) then skipUsed used (idx + 1)
    else idx
  else idx
termination_by COLORS.length - idx

/-- The Stage-5 `finalProjects.map` pass, with the mutable `usedColors` set
and `colorIndex` counter made explicit.  An eligible project receives the
palette entry the `while` loop stops on when one remains, which is then added
to `usedColors`; otherwise the project is returned unchanged. -/
def stage5Go (m : List (String × MapEntry)) :
    List String → Nat → List Project → List Project
  | _, _, [] => []
  | used, idx, p :: rest =>
    if eligibleB m p then
      let j := skipUsed used idx
      if h : j < COLORS.length then
        let c := COLORS.get ⟨j, h⟩
        { p with color := c } :: stage5Go m (used ++ [c]) (j + 1) rest
      else
        p :: stage5Go m used j rest
    else
      p :: stage5Go m used idx rest

/-- Stage 5: `usedColors` starts as the set of all pre-fallback project
colors and `colorIndex` at `0`. -/
def stage5 (m : List (String × MapEntry)) (ps : List Project) : List Project :=
  stage5Go m (ps.map Project.color) 0 ps

/-- The whole engine on an already-flattened event list. -/
def displayProjectsEvents (lower : String → String)
    (events : List AnalyzedEvent) (rules : List (String × String))
    (m : List (String × MapEntry)) (ignored : List String) : List Project :=
  stage5 m
    (finalProjects (stage4 m (stage3 ignored (processEvents lower rules events))))

/-- The `displayProjects` memo: `calendarImages.flatMap(img => img.events)`
fed through the five stages. -/
def displayProjects (lower : String → String) (images : List CalendarImage)
    (rules : List (String × String)) (m : List (String × MapEntry))
    (ignored : List String) : List Project :=
  displayProjectsEvents lower (images.flatMap CalendarImage.events) rules m
    ignored

/-- Mutator `handleUpdateProject`: for each selected original key, if its current
display name (read from the pre-call state, as the closure does) equals the
new name, first propagate the new color to every mapping entry whose `name`
field is that display name, then point the key at the new name and color. -/
def handleUpdateProject (prev : List (String × MapEntry))
    (originalNames : List String) (newName newColor : String) :
    List (String × MapEntry) :=
  originalNames.foldl
    (fun acc originalName =>
      setKey
        (if displayNameOf prev originalName = newName then
          acc.map (fun q =>
            if q.2.name = displayNameOf prev originalName then
              (q.1, ⟨q.2.name, newColor⟩)
            else q)
        else acc)
        originalName ⟨newName, newColor⟩)
    prev

/-- Total duration of a list of projects / events / record entries. -/
def sumBy {α : Type} (f : α → ℚ) (l : List α) : ℚ :=
  (l.map f).sum

/-- The display colors contributed to display name `d`, in iteration order,
by the entries of `aggregatedByOriginal`. -/
def contribColors (m : List (String × MapEntry)) (d : String)
    (l : List (String × OrigData)) : List String :=
  (l.filter (fun p => displayNameOf m p.1 == d)).map
    (fun p => displayColorOf m p.1 p.2.color)

/-- The original aggregation keys that resolve to display name `d`, in
iteration order. -/
def contribKeys (m : List (String × MapEntry)) (d : String)
    (l : List (String × OrigData)) : List String :=
  (l.map Prod.fst).filter (fun k => displayNameOf m k == d)

/-- The colors Stage 5 substituted, read off positionally from the input and
output project lists. -/
def assignedColors (ps out : List Project) : List String :=
  ((ps.zip out).filter (fun pq => pq.1.color != pq.2.color)).map
    (fun pq => pq.2.color)

/-- Positional relation between a Stage-4 project and its Stage-5 image: a
non-eligible project is returned unchanged, and any project is either
unchanged or recolored with a palette entry. -/
def stage5ColorRel (m : List (String × MapEntry)) (p q : Project) : Prop :=
  (eligibleB m p = false → q = p)
  ∧ (q = p ∨ ∃ j, ∃ h : j < COLORS.length, q = { p with color := COLORS.get ⟨j, h⟩ })

/-- Positional relation: same project up to the color field. -/
def sameButColor (p q : Project) : Prop :=
  q.name = p.name ∧ q.duration = p.duration ∧ q.originalNames = p.originalNames

/-- Modelled from the spec: "assign the next unused color from a fixed
ordered palette, skipping colors already in use" — the first palette entry
not in the used set. -/
def specNextColor (used : List String) : Option String :=
  COLORS.find? (fun c => !(used.contains c))

/-- Modelled from the spec: Stage 5 described by §4.1 — walk the projects in
order and give each eligible one the first palette color not yet in use. -/
def stage5SpecGo (m : List (String × MapEntry)) :
    List String → List Project → List Project
  | _, [] => []
  | used, p :: rest =>
    if eligibleB m p then
      match specNextColor used with
      | some c => { p with color := c } :: stage5SpecGo m (used ++ [c]) rest
      | none => p :: stage5SpecGo m used rest
    else
      p :: stage5SpecGo m used rest

/-- Modelled from the spec: the whole Stage-5 pass of §4.1. -/
def stage5Spec (m : List (String × MapEntry)) (ps : List Project) :
    List Project :=
  stage5SpecGo m (ps.map Project.color) ps

/-! ## Association-list lemmas -/

theorem sumBy_nil {α : Type} (f : α → ℚ) : sumBy f [] = 0 := rfl

theorem sumBy_cons {α : Type} (f : α → ℚ) (a : α) (l : List α) :
    sumBy f (a :: l) = f a + sumBy f l := by
  simp [sumBy]

theorem lookup_setKey_same {α : Type} (m : List (String × α)) (k : String)
    (v : α) : lookupKey (setKey m k v) k = some v := by
  induction m with
  | nil => simp [setKey, lookupKey]
  | cons p t ih =>
    by_cases h : p.1 = k
    · simp [setKey, h, lookupKey]
    · simp [setKey, h, lookupKey, ih]

theorem lookup_setKey_ne {α : Type} (m : List (String × α)) (k k' : String)
    (v : α) (h : k' ≠ k) :
    lookupKey (setKey m k v) k' = lookupKey m k' := by
  induction m with
  | nil => simp [setKey, lookupKey, Ne.symm h]
  | cons p t ih =>
    by_cases hp : p.1 = k
    · subst hp
      simp [setKey, lookupKey, Ne.symm h]
    · by_cases hk : p.1 = k'
      · simp [setKey, hp, lookupKey, hk, h]
      · simp [setKey, hp, lookupKey, hk, ih]

theorem keys_setKey_none {α : Type} (m : List (String × α)) (k : String)
    (v : α) (h : lookupKey m k = none) :
    (setKey m k v).map Prod.fst = m.map Prod.fst ++ [k] := by
  induction m with
  | nil => simp [setKey]
  | cons p t ih =>
    by_cases hp : p.1 = k
    · simp [lookupKey, hp] at h
    · simp [lookupKey, hp] at h
      simp [setKey, hp, ih h]

theorem keys_setKey_some {α : Type} (m : List (String × α)) (k : String)
    (v w : α) (h : lookupKey m k = some w) :
    (setKey m k v).map Prod.fst = m.map Prod.fst := by
  induction m with
  | nil => simp [lookupKey] at h
  | cons p t ih =>
    by_cases hp : p.1 = k
    · simp [setKey, hp]
    · simp [lookupKey, hp] at h
      simp [setKey, hp, ih h]

theorem lookup_none_iff {α : Type} (m : List (String × α)) (k : String) :
    lookupKey m k = none ↔ k ∉ m.map Prod.fst := by
  induction m with
  | nil => simp [lookupKey]
  | cons p t ih =>
    by_cases hp : p.1 = k
    · simp [lookupKey, hp]
    · simp [lookupKey, hp, ih, Ne.symm hp]

theorem lookup_mem {α : Type} (m : List (String × α)) (k : String) (v : α)
    (h : lookupKey m k = some v) : (k, v) ∈ m := by
  induction m with
  | nil => simp [lookupKey] at h
  | cons p t ih =>
    obtain ⟨a, b⟩ := p
    by_cases hp : a = k
    · subst hp
      simp [lookupKey] at h
      subst h
      exact List.mem_cons_self _ _
    · simp [lookupKey, hp] at h
      exact List.mem_cons_of_mem _ (ih h)

theorem mem_lookup_of_nodup {α : Type} (m : List (String × α))
    (hn : (m.map Prod.fst).Nodup) (k : String) (v : α) (hm : (k, v) ∈ m) :
    lookupKey m k = some v := by
  induction m with
  | nil => simp at hm
  | cons p t ih =>
    simp only [List.map_cons, List.nodup_cons] at hn
    rcases List.mem_cons.mp hm with h | h
    · subst h
      simp [lookupKey]
    · have hk : p.1 ≠ k := by
        intro he
        exact hn.1 (he ▸ (List.mem_map.mpr ⟨(k, v), h, rfl⟩))
      simp [lookupKey, hk, ih hn.2 h]

theorem sumBy_setKey_none {α : Type} (f : α → ℚ) (m : List (String × α))
    (k : String) (v : α) (h : lookupKey m k = none) :
    sumBy (fun p => f p.2) (setKey m k v) = sumBy (fun p => f p.2) m + f v := by
  induction m with
  | nil => simp [setKey, sumBy]
  | cons p t ih =>
    by_cases hp : p.1 = k
    · simp [lookupKey, hp] at h
    · simp [lookupKey, hp] at h
      simp only [setKey, if_neg hp, sumBy_cons, ih h]
      ring

theorem sumBy_setKey_some {α : Type} (f : α → ℚ) (m : List (String × α))
    (k : String) (v w : α) (h : lookupKey m k = some w) :
    sumBy (fun p => f p.2) (setKey m k v)
      = sumBy (fun p => f p.2) m - f w + f v := by
  induction m with
  | nil => simp [lookupKey] at h
  | cons p t ih =>
    by_cases hp : p.1 = k
    · simp [lookupKey, hp] at h
      subst h
      simp only [setKey, if_pos hp, sumBy_cons]
      ring
    · simp [lookupKey, hp] at h
      simp only [setKey, if_neg hp, sumBy_cons, ih h]
      ring

/-! ## Stage 3: sums -/

theorem stage3_foldl_sum (ign : List String) (evs : List AnalyzedEvent) :
    ∀ acc : List (String × OrigData),
      sumBy (fun p => p.2.duration) (evs.foldl (stage3Step ign) acc)
        = sumBy (fun p => p.2.duration) acc
          + sumBy AnalyzedEvent.durationHours
              (evs.filter (fun e => !(ign.contains e.title))) := by
  induction evs with
  | nil => intro acc; simp [sumBy]
  | cons e t ih =>
    intro acc
    by_cases hig : ign.contains e.title
    · simp only [List.foldl_cons, stage3Step, if_pos hig, List.filter_cons,
        hig, Bool.not_true]
      simpa using ih acc
    · have hstep : sumBy (fun p => p.2.duration) (stage3Step ign acc e)
          = sumBy (fun p => p.2.duration) acc + e.durationHours := by
        unfold stage3Step
        rw [if_neg hig]
        cases hl : lookupKey acc e.title with
        | none =>
          simpa using sumBy_setKey_none OrigData.duration acc e.title
            ⟨e.durationHours, e.color⟩ hl
        | some d =>
          have := sumBy_setKey_some OrigData.duration acc e.title
            ⟨d.duration + e.durationHours, d.color⟩ d hl
          simp only [this]
          ring
      simp only [List.foldl_cons, List.filter_cons, hig, Bool.not_false,
        if_true, sumBy_cons, ih (stage3Step ign acc e), hstep]
      ring

theorem stage3_sum (ign : List String) (evs : List AnalyzedEvent) :
    sumBy (fun p => p.2.duration) (stage3 ign evs)
      = sumBy AnalyzedEvent.durationHours
          (evs.filter (fun e => !(ign.contains e.title))) := by
  simpa [sumBy] using stage3_foldl_sum ign evs []

/-! ## Stage 4: sums -/

theorem stage4_foldl_sum (m : List (String × MapEntry))
    (orig : List (String × OrigData)) :
    ∀ acc : List (String × DispData),
      sumBy (fun p => p.2.duration) (orig.foldl (stage4Step m) acc)
        = sumBy (fun p => p.2.duration) acc
          + sumBy (fun p => p.2.duration) orig := by
  induction orig with
  | nil => intro acc; simp [sumBy]
  | cons p t ih =>
    intro acc
    have hstep : sumBy (fun q => q.2.duration) (stage4Step m acc p)
        = sumBy (fun q => q.2.duration) acc + p.2.duration := by
      unfold stage4Step
      cases hl : lookupKey acc (displayNameOf m p.1) with
      | none =>
        simp only [hl]
        simpa using sumBy_setKey_none DispData.duration acc
          (displayNameOf m p.1)
          ⟨p.2.duration, displayColorOf m p.1 p.2.color, [p.1]⟩ hl
      | some g =>
        have h2 := sumBy_setKey_some DispData.duration acc
          (displayNameOf m p.1)
          ⟨g.duration + p.2.duration, displayColorOf m p.1 p.2.color,
            insName g.originalNames p.1⟩ g hl
        simp only [hl, h2]
        ring
    simp only [List.foldl_cons, sumBy_cons, ih (stage4Step m acc p), hstep]
    ring

theorem stage4_sum (m : List (String × MapEntry))
    (orig : List (String × OrigData)) :
    sumBy (fun p => p.2.duration) (stage4 m orig)
      = sumBy (fun p => p.2.duration) orig := by
  simpa [sumBy] using stage4_foldl_sum m orig []

/-! ## Stage 5: duration, name and originalNames preservation -/

theorem stage5Go_sum (m : List (String × MapEntry)) (ps : List Project) :
    ∀ (used : List String) (idx : Nat),
      sumBy Project.duration (stage5Go m used idx ps)
        = sumBy Project.duration ps := by
  induction ps with
  | nil => intro used idx; simp [stage5Go]
  | cons p t ih =>
    intro used idx
    unfold stage5Go
    by_cases he : eligibleB m p
    · rw [if_pos he]
      by_cases h : skipUsed used idx < COLORS.length
      · rw [dif_pos h]
        simp only [sumBy_cons, ih]
      · rw [dif_neg h]
        simp only [sumBy_cons, ih]
    · rw [if_neg he]
      simp only [sumBy_cons, ih]

theorem stage5_sum (m : List (String × MapEntry)) (ps : List Project) :
    sumBy Project.duration (stage5 m ps) = sumBy Project.duration ps :=
  stage5Go_sum m ps _ _

theorem finalProjects_sum (disp : List (String × DispData)) :
    sumBy Project.duration (finalProjects disp)
      = sumBy (fun p => p.2.duration) disp := by
  simp [finalProjects, sumBy, List.map_map]
  rfl

theorem processEvents_filter_sum (lower : String → String)
    (rules : List (String × String)) (ign : List String)
    (evs : List AnalyzedEvent) :
    sumBy AnalyzedEvent.durationHours
        ((processEvents lower rules evs).filter
          (fun e => !(ign.contains e.title)))
      = sumBy AnalyzedEvent.durationHours
          (evs.filter
            (fun e => !(ign.contains (resolveTitle lower rules e.title)))) := by
  induction evs with
  | nil => simp [processEvents]
  | cons e t ih =>
    simp only [processEvents, List.map_cons, List.filter_cons] at ih ⊢
    by_cases hig : ign.contains (resolveTitle lower rules e.title)
    · simp only [hig, Bool.not_true, if_false]
      exact ih
    · simp only [hig, Bool.not_false, if_true, sumBy_cons, ih]

/-- Claim C1 (amended): duration conservation.  For every input, the sum of
`duration` over the engine's output projects equals the sum of
`durationHours` over the raw events whose effective label, as the code
resolves it (a found rule applies only when its keyword is non-empty), is
not in the ignore list; in particular with no rules, mappings or ignores it
equals the sum of all input `durationHours`.  The spec's own resolution
(`specResolveTitle`, which also applies empty-keyword rules) does not
describe the conserved set — see the counterexample. -/
theorem c1_duration_conservation :
    ∀ (lower : String → String) (evs : List AnalyzedEvent)
      (rules : List (String × String)) (m : List (String × MapEntry))
      (ign : List String),
      sumBy Project.duration (displayProjectsEvents lower evs rules m ign)
        = sumBy AnalyzedEvent.durationHours
            (evs.filter
              (fun e => !(ign.contains (resolveTitle lower rules e.title))))
      ∧ sumBy Project.duration (displayProjectsEvents lower evs [] [] [])
        = sumBy AnalyzedEvent.durationHours evs := by
  have main : ∀ (lower : String → String) (evs : List AnalyzedEvent)
      (rules : List (String × String)) (m : List (String × MapEntry))
      (ign : List String),
      sumBy Project.duration (displayProjectsEvents lower evs rules m ign)
        = sumBy AnalyzedEvent.durationHours
            (evs.filter
              (fun e => !(ign.contains (resolveTitle lower rules e.title)))) := by
    intro lower evs rules m ign
    unfold displayProjectsEvents
    rw [stage5_sum, finalProjects_sum, stage4_sum, stage3_sum,
      processEvents_filter_sum]
  intro lower evs rules m ign
  refine ⟨main lower evs rules m ign, ?_⟩
  rw [main lower evs [] [] []]
  simp

/-- Claim C1 (counterexample): with the rule set `{"" ↦ X}` and `X` ignored,
the spec's Stage-1 resolution labels the event `Gym` as `X`, so the claim
predicts a total of `0`; the code never applies an empty-keyword rule (the
found key is falsy), keeps the event under its own title, and outputs a
total of `1`. -/
theorem c1_counterexample :
    ¬ sumBy Project.duration
        (displayProjectsEvents asciiLower [⟨"Gym", 1, "#123456"⟩]
          [("", "X")] [] ["X"])
      = sumBy AnalyzedEvent.durationHours
          ([(⟨"Gym", 1, "#123456"⟩ : AnalyzedEvent)].filter
            (fun e =>
              !(List.contains ["X"]
                (specResolveTitle asciiLower [("", "X")] e.title)))) := by
  have h1 : displayProjectsEvents asciiLower [⟨"Gym", 1, "#123456"⟩]
      [("", "X")] [] ["X"] = [⟨"Gym", 1, "#123456", ["Gym"]⟩] := by decide
  have h2 : [(⟨"Gym", 1, "#123456"⟩ : AnalyzedEvent)].filter
      (fun e =>
        !(List.contains ["X"]
          (specResolveTitle asciiLower [("", "X")] e.title))) = [] := by decide
  rw [h1, h2]
  norm_num [sumBy]

/-! ## Stage 3: carried colors -/

theorem stage3Step_lookup_other (ign : List String)
    (acc : List (String × OrigData)) (e : AnalyzedEvent) (k : String)
    (h : e.title ≠ k) :
    lookupKey (stage3Step ign acc e) k = lookupKey acc k := by
  unfold stage3Step
  by_cases hig : ign.contains e.title
  · rw [if_pos hig]
  · rw [if_neg hig]
    cases hl : lookupKey acc e.title with
    | none => exact lookup_setKey_ne acc e.title k _ (Ne.symm h)
    | some d => exact lookup_setKey_ne acc e.title k _ (Ne.symm h)

theorem stage3Step_color_invariant (ign : List String)
    (acc : List (String × OrigData)) (e : AnalyzedEvent) (k : String)
    (d : OrigData) (h : lookupKey acc k = some d) :
    ∃ d', lookupKey (stage3Step ign acc e) k = some d' ∧ d'.color = d.color := by
  by_cases ht : e.title = k
  · unfold stage3Step
    by_cases hig : ign.contains e.title
    · rw [if_pos hig]; exact ⟨d, h, rfl⟩
    · rw [if_neg hig, ht, h]
      exact ⟨_, lookup_setKey_same acc k _, rfl⟩
  · rw [stage3Step_lookup_other ign acc e k ht]
    exact ⟨d, h, rfl⟩

theorem stage3_foldl_color_invariant (ign : List String)
    (evs : List AnalyzedEvent) :
    ∀ (acc : List (String × OrigData)) (k : String) (d : OrigData),
      lookupKey acc k = some d →
      ∃ d', lookupKey (evs.foldl (stage3Step ign) acc) k = some d'
        ∧ d'.color = d.color := by
  induction evs with
  | nil => intro acc k d h; exact ⟨d, h, rfl⟩
  | cons e t ih =>
    intro acc k d h
    obtain ⟨d1, h1, hc1⟩ := stage3Step_color_invariant ign acc e k d h
    obtain ⟨d2, h2, hc2⟩ := ih (stage3Step ign acc e) k d1 h1
    exact ⟨d2, h2, hc2.trans hc1⟩

theorem stage3_foldl_color (ign : List String) (k : String) :
    ∀ (evs : List AnalyzedEvent) (acc : List (String × OrigData)),
      lookupKey acc k = none →
      Option.map OrigData.color (lookupKey (evs.foldl (stage3Step ign) acc) k)
        = Option.map AnalyzedEvent.color
            (evs.find? (fun e => !(ign.contains e.title) && e.title == k)) := by
  intro evs
  induction evs with
  | nil => intro acc h; simp [h]
  | cons e t ih =>
    intro acc h
    by_cases hig : ign.contains e.title
    · have hstep : stage3Step ign acc e = acc := by
        unfold stage3Step; rw [if_pos hig]
      simp only [List.foldl_cons, hstep, List.find?_cons, hig, Bool.not_true,
        Bool.false_and]
      exact ih acc h
    · by_cases ht : e.title = k
      · subst ht
        have hstep : stage3Step ign acc e
            = setKey acc e.title ⟨e.durationHours, e.color⟩ := by
          unfold stage3Step
          rw [if_neg hig, h]
        have hlook : lookupKey (stage3Step ign acc e) e.title
            = some ⟨e.durationHours, e.color⟩ := by
          rw [hstep]; exact lookup_setKey_same acc e.title _
        obtain ⟨d', hd', hc'⟩ :=
          stage3_foldl_color_invariant ign t (stage3Step ign acc e) e.title _
            hlook
        have hnotmem : e.title ∉ ign := by simpa using hig
        have hfind :
            (List.find? (fun x => !(ign.contains x.title) && x.title == e.title)
              (e :: t)) = some e := by
          simp [List.find?_cons, hnotmem]
        simp only [List.foldl_cons, hd', hfind]
        simp [hc']
      · have hstep : lookupKey (stage3Step ign acc e) k = none := by
          rw [stage3Step_lookup_other ign acc e k ht]; exact h
        have hfind : (List.find? (fun e => !(ign.contains e.title) && e.title == k)
            (e :: t))
            = List.find? (fun e => !(ign.contains e.title) && e.title == k) t := by
          simp [List.find?_cons, ht]
        simp only [List.foldl_cons, hfind]
        exact ih (stage3Step ign acc e) hstep

/-- Claim C2 (counterexample): with two events of the same label, the carried
Stage-3 color is the color of the first, not the last. -/
theorem c2_counterexample :
    Option.map OrigData.color
        (lookupKey (stage3 [] [⟨"T", 1, "#111111"⟩, ⟨"T", 1, "#222222"⟩]) "T")
      = some ("#111111" : String)
    ∧ ¬ Option.map OrigData.color
          (lookupKey (stage3 [] [⟨"T", 1, "#111111"⟩, ⟨"T", 1, "#222222"⟩]) "T")
        = some ("#222222" : String) := by
  constructor
  · decide
  · decide

/-- Claim C2 (amended): for every original aggregation key, the color carried
for that key into Stage 4 is the color of the **first** event with that
effective label in iteration order (among events surviving the ignore
filter); later events with the same label do not overwrite it. -/
theorem c2_first_event_color_carried :
    ∀ (lower : String → String) (rules : List (String × String))
      (ign : List String) (evs : List AnalyzedEvent) (k : String),
      Option.map OrigData.color
          (lookupKey (stage3 ign (processEvents lower rules evs)) k)
        = Option.map AnalyzedEvent.color
            ((processEvents lower rules evs).find?
              (fun e => !(ign.contains e.title) && e.title == k)) := by
  intro lower rules ign evs k
  exact stage3_foldl_color ign k (processEvents lower rules evs) [] rfl

/-! ## Key lists and nodup invariants -/

theorem mem_setKey {α : Type} (m : List (String × α)) (k : String) (v : α)
    (q : String × α) (h : q ∈ setKey m k v) : q ∈ m ∨ q = (k, v) := by
  induction m with
  | nil =>
    simp [setKey] at h
    right
    exact h
  | cons p t ih =>
    by_cases hp : p.1 = k
    · simp only [setKey, if_pos hp, List.mem_cons] at h
      rcases h with h | h
      · right; exact h
      · left; exact List.mem_cons_of_mem _ h
    · simp only [setKey, if_neg hp, List.mem_cons] at h
      rcases h with h | h
      · left; exact h ▸ List.mem_cons_self _ _
      · rcases ih h with h2 | h2
        · left; exact List.mem_cons_of_mem _ h2
        · right; exact h2

theorem setKey_keys_nodup {α : Type} (m : List (String × α)) (k : String)
    (v : α) (h : (m.map Prod.fst).Nodup) :
    ((setKey m k v).map Prod.fst).Nodup := by
  cases hl : lookupKey m k with
  | none =>
    rw [keys_setKey_none m k v hl]
    have hk : k ∉ m.map Prod.fst := (lookup_none_iff m k).mp hl
    refine List.Nodup.append h (List.nodup_singleton k) ?_
    intro a ha hb
    rw [List.mem_singleton] at hb
    exact hk (hb ▸ ha)
  | some w =>
    rw [keys_setKey_some m k v w hl]
    exact h

theorem stage3Step_keys_nodup (ign : List String)
    (acc : List (String × OrigData)) (e : AnalyzedEvent)
    (h : (acc.map Prod.fst).Nodup) :
    ((stage3Step ign acc e).map Prod.fst).Nodup := by
  unfold stage3Step
  by_cases hig : ign.contains e.title
  · rw [if_pos hig]; exact h
  · rw [if_neg hig]
    cases lookupKey acc e.title with
    | none => exact setKey_keys_nodup acc e.title _ h
    | some d => exact setKey_keys_nodup acc e.title _ h

theorem stage3_foldl_keys_nodup (ign : List String)
    (evs : List AnalyzedEvent) :
    ∀ acc : List (String × OrigData), (acc.map Prod.fst).Nodup →
      ((evs.foldl (stage3Step ign) acc).map Prod.fst).Nodup := by
  induction evs with
  | nil => intro acc h; exact h
  | cons e t ih =>
    intro acc h
    exact ih (stage3Step ign acc e) (stage3Step_keys_nodup ign acc e h)

theorem stage3_keys_nodup (ign : List String) (evs : List AnalyzedEvent) :
    ((stage3 ign evs).map Prod.fst).Nodup :=
  stage3_foldl_keys_nodup ign evs [] (by simp)

theorem stage4Step_keys_nodup (m : List (String × MapEntry))
    (acc : List (String × DispData)) (p : String × OrigData)
    (h : (acc.map Prod.fst).Nodup) :
    ((stage4Step m acc p).map Prod.fst).Nodup := by
  unfold stage4Step
  cases lookupKey acc (displayNameOf m p.1) with
  | none => exact setKey_keys_nodup acc _ _ h
  | some g => exact setKey_keys_nodup acc _ _ h

theorem stage4_foldl_keys_nodup (m : List (String × MapEntry))
    (orig : List (String × OrigData)) :
    ∀ acc : List (String × DispData), (acc.map Prod.fst).Nodup →
      ((orig.foldl (stage4Step m) acc).map Prod.fst).Nodup := by
  induction orig with
  | nil => intro acc h; exact h
  | cons p t ih =>
    intro acc h
    exact ih (stage4Step m acc p) (stage4Step_keys_nodup m acc p h)

theorem stage4_keys_nodup (m : List (String × MapEntry))
    (orig : List (String × OrigData)) :
    ((stage4 m orig).map Prod.fst).Nodup :=
  stage4_foldl_keys_nodup m orig [] (by simp)

/-! ## Stage 4: display colors (last contributor wins) -/

theorem getLast?_cons_or {α : Type} (cs : List α) :
    ∀ (c : α) (x : Option α),
      (List.getLast? (c :: cs)).or x = (List.getLast? cs).or (some c) := by
  induction cs with
  | nil => intro c x; simp
  | cons b t ih =>
    intro c x
    rw [List.getLast?_cons_cons, ih b x, ih b (some c)]

theorem stage4Step_lookup_other (m : List (String × MapEntry))
    (acc : List (String × DispData)) (p : String × OrigData) (k : String)
    (h : displayNameOf m p.1 ≠ k) :
    lookupKey (stage4Step m acc p) k = lookupKey acc k := by
  unfold stage4Step
  cases lookupKey acc (displayNameOf m p.1) with
  | none => exact lookup_setKey_ne acc _ k _ (Ne.symm h)
  | some g => exact lookup_setKey_ne acc _ k _ (Ne.symm h)

theorem stage4Step_lookup_disp (m : List (String × MapEntry))
    (acc : List (String × DispData)) (p : String × OrigData) :
    ∃ g', lookupKey (stage4Step m acc p) (displayNameOf m p.1) = some g'
      ∧ g'.color = displayColorOf m p.1 p.2.color := by
  unfold stage4Step
  cases lookupKey acc (displayNameOf m p.1) with
  | none => exact ⟨_, lookup_setKey_same acc _ _, rfl⟩
  | some g => exact ⟨_, lookup_setKey_same acc _ _, rfl⟩

theorem stage4_foldl_color (m : List (String × MapEntry)) (k : String) :
    ∀ (l : List (String × OrigData)) (acc : List (String × DispData)),
      Option.map DispData.color (lookupKey (l.foldl (stage4Step m) acc) k)
        = ((contribColors m k l).getLast?).or
            (Option.map DispData.color (lookupKey acc k)) := by
  intro l
  induction l with
  | nil => intro acc; simp [contribColors]
  | cons p t ih =>
    intro acc
    by_cases hc : displayNameOf m p.1 = k
    · obtain ⟨g', hg', hcol⟩ := stage4Step_lookup_disp m acc p
      rw [hc] at hg'
      have hcontrib : contribColors m k (p :: t)
          = displayColorOf m p.1 p.2.color :: contribColors m k t := by
        simp [contribColors, List.filter_cons, hc]
      rw [List.foldl_cons, ih (stage4Step m acc p), hg', hcontrib,
        getLast?_cons_or]
      simp [hcol]
    · have hcontrib : contribColors m k (p :: t) = contribColors m k t := by
        simp [contribColors, List.filter_cons, hc]
      rw [List.foldl_cons, ih (stage4Step m acc p), hcontrib,
        stage4Step_lookup_other m acc p k hc]

theorem stage4_color (m : List (String × MapEntry))
    (orig : List (String × OrigData)) (k : String) :
    Option.map DispData.color (lookupKey (stage4 m orig) k)
      = (contribColors m k orig).getLast? := by
  have := stage4_foldl_color m k orig []
  simpa [lookupKey] using this

/-- Claim C3 (counterexample): with mapping `A ↦ {B, #111111}` and events
`A` then `B`, the contributing key `A` has a mapping entry, yet the
pre-fallback color of project `B` is the carried color `#222222` of the last
contributing key `B`, not the mapping color `#111111`. -/
theorem c3_counterexample :
    Option.map DispData.color
        (lookupKey (stage4 [("A", ⟨"B", "#111111"⟩)]
          (stage3 [] [⟨"A", 1, "#808080"⟩, ⟨"B", 2, "#222222"⟩])) "B")
      = some ("#222222" : String)
    ∧ Option.map DispData.originalNames
        (lookupKey (stage4 [("A", ⟨"B", "#111111"⟩)]
          (stage3 [] [⟨"A", 1, "#808080"⟩, ⟨"B", 2, "#222222"⟩])) "B")
      = some ["A", "B"]
    ∧ lookupKey [("A", (⟨"B", "#111111"⟩ : MapEntry))] "A"
      = some ⟨"B", "#111111"⟩
    ∧ ("#222222" : String) ≠ "#111111" := by
  refine ⟨by decide, by decide, by decide, by decide⟩

/-- Claim C3 (amended): for every output Project, the pre-fallback color is
the display color of the **last** contributing original key in iteration
order — that key's mapping color when it has a mapping entry with a
non-empty color, otherwise that key's carried color.  A mapping entry on an
earlier contributing key does not override a later key's carried color. -/
theorem c3_last_contributor_color :
    ∀ (m : List (String × MapEntry)) (orig : List (String × OrigData))
      (p : Project), p ∈ finalProjects (stage4 m orig) →
      some p.color = (contribColors m p.name orig).getLast? := by
  intro m orig p hp
  obtain ⟨⟨d, g⟩, hmem, hpe⟩ := List.mem_map.mp hp
  have hlook : lookupKey (stage4 m orig) d = some g :=
    mem_lookup_of_nodup _ (stage4_keys_nodup m orig) d g hmem
  have := stage4_color m orig d
  rw [hlook] at this
  rw [← hpe]
  simpa using this

/-- Claim C3 (amended, witness). -/
theorem c3_witness :
    some ("#111111" : String)
      = (contribColors [] "A" [("A", ⟨1, "#111111"⟩)]).getLast? :=
  c3_last_contributor_color [] [("A", ⟨1, "#111111"⟩)]
    ⟨"A", 1, "#111111", ["A"]⟩ (by decide)

/-! ## Stage 2 (ignore filter) and Stage 5 shape -/

theorem insName_mem (ns : List String) (k n : String)
    (h : n ∈ insName ns k) : n ∈ ns ∨ n = k := by
  unfold insName at h
  by_cases hc : ns.contains k
  · rw [if_pos hc] at h
    left; exact h
  · rw [if_neg hc] at h
    rcases List.mem_append.mp h with h | h
    · left; exact h
    · right; simpa using h

theorem stage3_drop_label (ign : List String) (K : String)
    (hK : ign.contains K = true) :
    ∀ (evs : List AnalyzedEvent) (acc : List (String × OrigData)),
      evs.foldl (stage3Step ign) acc
        = (evs.filter (fun e => !(e.title == K))).foldl (stage3Step ign) acc := by
  intro evs
  induction evs with
  | nil => intro acc; rfl
  | cons e t ih =>
    intro acc
    by_cases ht : e.title = K
    · have hstep : stage3Step ign acc e = acc := by
        unfold stage3Step
        rw [ht, if_pos hK]
      simp only [List.foldl_cons, List.filter_cons, ht, hstep]
      simpa using ih acc
    · have hf : (e.title == K) = false := by
        simpa using ht
      simp only [List.foldl_cons, List.filter_cons, hf, Bool.not_false,
        if_true]
      exact ih (stage3Step ign acc e)

theorem processEvents_filter_label (lower : String → String)
    (rules : List (String × String)) (K : String)
    (evs : List AnalyzedEvent) :
    (processEvents lower rules evs).filter (fun e => !(e.title == K))
      = processEvents lower rules
          (evs.filter
            (fun e => !(resolveTitle lower rules e.title == K))) := by
  induction evs with
  | nil => rfl
  | cons e t ih =>
    simp only [processEvents, List.map_cons, List.filter_cons] at ih ⊢
    by_cases ht : resolveTitle lower rules e.title = K
    · simp only [ht]
      simpa using ih
    · have hf : (resolveTitle lower rules e.title == K) = false := by
        simpa using ht
      simp only [hf, Bool.not_false, if_true, List.map_cons]
      rw [ih]

theorem stage3_keys_not_ignored (ign : List String)
    (evs : List AnalyzedEvent) :
    ∀ acc : List (String × OrigData),
      (∀ k ∈ acc.map Prod.fst, ign.contains k = false) →
      ∀ k ∈ (evs.foldl (stage3Step ign) acc).map Prod.fst,
        ign.contains k = false := by
  induction evs with
  | nil => intro acc h; exact h
  | cons e t ih =>
    intro acc h
    refine ih (stage3Step ign acc e) ?_
    intro k hk
    by_cases hig : ign.contains e.title
    · have : stage3Step ign acc e = acc := by
        unfold stage3Step; rw [if_pos hig]
      rw [this] at hk
      exact h k hk
    · have hkeys : (stage3Step ign acc e).map Prod.fst = acc.map Prod.fst
          ∨ (stage3Step ign acc e).map Prod.fst
            = acc.map Prod.fst ++ [e.title] := by
        unfold stage3Step
        rw [if_neg hig]
        cases hl : lookupKey acc e.title with
        | none => right; exact keys_setKey_none acc e.title _ hl
        | some d => left; exact keys_setKey_some acc e.title _ d hl
      rcases hkeys with hkeys | hkeys
      · rw [hkeys] at hk
        exact h k hk
      · rw [hkeys] at hk
        rcases List.mem_append.mp hk with hk | hk
        · exact h k hk
        · have : k = e.title := by simpa using hk
          subst this
          simpa using hig

theorem stage4_onames_pred (m : List (String × MapEntry)) (P : String → Prop)
    (l : List (String × OrigData)) :
    ∀ acc : List (String × DispData),
      (∀ q ∈ acc, ∀ n ∈ q.2.originalNames, P n) →
      (∀ p ∈ l, P p.1) →
      ∀ q ∈ l.foldl (stage4Step m) acc, ∀ n ∈ q.2.originalNames, P n := by
  induction l with
  | nil => intro acc hacc _ q hq; exact hacc q hq
  | cons p t ih =>
    intro acc hacc hl
    refine ih (stage4Step m acc p) ?_ (fun r hr => hl r (List.mem_cons_of_mem _ hr))
    intro q hq n hn
    have hP : P p.1 := hl p (List.mem_cons_self _ _)
    unfold stage4Step at hq
    cases hlk : lookupKey acc (displayNameOf m p.1) with
    | none =>
      rw [hlk] at hq
      rcases mem_setKey _ _ _ q hq with h | h
      · exact hacc q h n hn
      · subst h
        have : n = p.1 := by simpa using hn
        subst this
        exact hP
    | some g =>
      rw [hlk] at hq
      rcases mem_setKey _ _ _ q hq with h | h
      · exact hacc q h n hn
      · subst h
        simp only at hn
        rcases insName_mem g.originalNames p.1 n hn with h2 | h2
        · exact hacc _ (lookup_mem acc _ g hlk) n h2
        · subst h2
          exact hP

theorem stage5Go_shape (m : List (String × MapEntry)) (ps : List Project) :
    ∀ (used : List String) (idx : Nat) (q : Project),
      q ∈ stage5Go m used idx ps → ∃ p ∈ ps, sameButColor p q := by
  induction ps with
  | nil => intro used idx q hq; simp [stage5Go] at hq
  | cons p t ih =>
    intro used idx q hq
    unfold stage5Go at hq
    by_cases he : eligibleB m p
    · rw [if_pos he] at hq
      by_cases h : skipUsed used idx < COLORS.length
      · rw [dif_pos h] at hq
        rcases List.mem_cons.mp hq with hq | hq
        · exact ⟨p, List.mem_cons_self _ _, by subst hq; exact ⟨rfl, rfl, rfl⟩⟩
        · obtain ⟨p', hp', hs⟩ := ih _ _ q hq
          exact ⟨p', List.mem_cons_of_mem _ hp', hs⟩
      · rw [dif_neg h] at hq
        rcases List.mem_cons.mp hq with hq | hq
        · exact ⟨p, List.mem_cons_self _ _, by subst hq; exact ⟨rfl, rfl, rfl⟩⟩
        · obtain ⟨p', hp', hs⟩ := ih _ _ q hq
          exact ⟨p', List.mem_cons_of_mem _ hp', hs⟩
    · rw [if_neg he] at hq
      rcases List.mem_cons.mp hq with hq | hq
      · exact ⟨p, List.mem_cons_self _ _, by subst hq; exact ⟨rfl, rfl, rfl⟩⟩
      · obtain ⟨p', hp', hs⟩ := ih _ _ q hq
        exact ⟨p', List.mem_cons_of_mem _ hp', hs⟩

/-- Every `originalNames` element of an output project is a key of
`aggregatedByOriginal`, hence never an ignored label. -/
theorem output_onames_not_ignored (lower : String → String)
    (evs : List AnalyzedEvent) (rules : List (String × String))
    (m : List (String × MapEntry)) (ign : List String) :
    ∀ p ∈ displayProjectsEvents lower evs rules m ign,
      ∀ n ∈ p.originalNames, ign.contains n = false := by
  intro p hp n hn
  obtain ⟨p', hp', hs⟩ :=
    stage5Go_shape m
      (finalProjects (stage4 m (stage3 ign (processEvents lower rules evs))))
      _ _ p hp
  rw [hs.2.2] at hn
  obtain ⟨⟨d, g⟩, hmem, hpe⟩ := List.mem_map.mp hp'
  have honames := stage4_onames_pred m
    (fun n => ign.contains n = false)
    (stage3 ign (processEvents lower rules evs)) []
    (by intro q hq; simp at hq)
    (by
      intro q hq
      exact stage3_keys_not_ignored ign (processEvents lower rules evs) []
        (by simp) q.1 (List.mem_map.mpr ⟨q, hq, rfl⟩))
    (d, g) hmem
  rw [← hpe] at hn
  exact honames n hn

/-- Claim C5 (counterexample): with `X` in the IgnoreSet and a mapping that
renames the non-ignored key `A` to `X`, the output still contains a Project
named `X`. -/
theorem c5_counterexample :
    List.map Project.name
        (displayProjectsEvents asciiLower [⟨"A", 1, "#222222"⟩] []
          [("A", ⟨"X", "#111111"⟩)] ["X"])
      = ["X"]
    ∧ List.contains (["X"] : List String) ("X") = true := by
  refine ⟨by decide, by decide⟩

/-- Claim C5 (amended): for every ignored original aggregation key `K`,
events whose effective label, as the code resolves it (a found rule applies
only when its keyword is non-empty), is `K` are dropped before any
aggregation (removing them from the input leaves the output unchanged), and
no output Project contains `K` in its `originalNames`.  However an output
Project may still be *named* `K` when a name mapping renames another,
non-ignored key to `K`. -/
theorem c5_ignored_key_dropped (lower : String → String)
    (evs : List AnalyzedEvent) (rules : List (String × String))
    (m : List (String × MapEntry)) (ign : List String) (K : String)
    (hK : ign.contains K = true) :
    displayProjectsEvents lower evs rules m ign
      = displayProjectsEvents lower
          (evs.filter (fun e => !(resolveTitle lower rules e.title == K)))
          rules m ign
    ∧ ∀ p ∈ displayProjectsEvents lower evs rules m ign,
        K ∉ p.originalNames := by
  constructor
  · have h3 : stage3 ign (processEvents lower rules evs)
        = stage3 ign (processEvents lower rules
            (evs.filter
              (fun e => !(resolveTitle lower rules e.title == K)))) := by
      unfold stage3
      rw [stage3_drop_label ign K hK (processEvents lower rules evs) [],
        processEvents_filter_label]
    unfold displayProjectsEvents
    rw [h3]
  · intro p hp hKmem
    have := output_onames_not_ignored lower evs rules m ign p hp K hKmem
    rw [hK] at this
    exact absurd this (by simp)

/-- Claim C5 (amended, witness). -/
theorem c5_witness :
    displayProjectsEvents asciiLower
        [⟨"Gym", 1, "#808080"⟩, ⟨"X", 2, "#111111"⟩] [] [] ["X"]
      = displayProjectsEvents asciiLower
          ([⟨"Gym", 1, "#808080"⟩, ⟨"X", 2, "#111111"⟩].filter
            (fun e => !(resolveTitle asciiLower [] e.title == "X")))
          [] [] ["X"] :=
  (c5_ignored_key_dropped asciiLower
    [⟨"Gym", 1, "#808080"⟩, ⟨"X", 2, "#111111"⟩] [] [] ["X"] "X"
    (by decide)).1

/-! ## Stage 1: rule resolution -/

theorem resolveTitle_cons_no_match (lower : String → String)
    (rules : List (String × String)) (q : String × String) (title : String)
    (h : titleMatches lower title q.1 = false) :
    resolveTitle lower (q :: rules) title = resolveTitle lower rules title := by
  unfold resolveTitle
  rw [List.find?_cons, h]

theorem resolveTitle_no_match (lower : String → String)
    (rules : List (String × String)) (title : String)
    (h : ∀ r ∈ rules, titleMatches lower title r.1 = false) :
    resolveTitle lower rules title = title := by
  unfold resolveTitle
  have : rules.find? (fun r => titleMatches lower title r.1) = none :=
    List.find?_eq_none.mpr (fun r hr => by simp [h r hr])
  rw [this]

theorem resolveTitle_first_match (lower : String → String) (title : String) :
    ∀ (pre : List (String × String)) (r : String × String)
      (post : List (String × String)),
      (∀ r' ∈ pre, titleMatches lower title r'.1 = false) →
      titleMatches lower title r.1 = true →
      resolveTitle lower (pre ++ r :: post) title
        = if r.1 = "" then title else r.2 := by
  intro pre
  induction pre with
  | nil =>
    intro r post _ hr
    unfold resolveTitle
    rw [List.nil_append, List.find?_cons, hr]
  | cons q t ih =>
    intro r post hpre hr
    rw [List.cons_append,
      resolveTitle_cons_no_match lower _ q title
        (hpre q (List.mem_cons_self _ _))]
    exact ih r post (fun r' hr' => hpre r' (List.mem_cons_of_mem _ hr')) hr

/-- Claim C6 (counterexample): the empty-string keyword occurs as a
substring of every title, so with rules `{"" ↦ X}` the first matching rule
for the title `Gym` is `("", X)`; the claim says the label becomes `X`, but
the code leaves the title unchanged because the found key is falsy. -/
theorem c6_counterexample :
    titleMatches asciiLower ("Gym") ("") = true
    ∧ resolveTitle asciiLower [("", "X")] "Gym" = "Gym"
    ∧ ("Gym" : String) ≠ "X" := by
  refine ⟨by decide, by decide, by decide⟩

/-- Claim C6 (amended): Stage-1 rule resolution.  If no keyword occurs as a
case-insensitive substring of the title, the label is the original title.
Otherwise, let `r` be the first matching rule in the rule mapping's
iteration order: when `r`'s keyword is non-empty the label becomes `r`'s
target; when `r`'s keyword is the empty string, the found key is JS-falsy
and the label is the original title unchanged. -/
theorem c6_rule_resolution :
    ∀ (lower : String → String) (rules : List (String × String))
      (title : String),
      ((∀ r ∈ rules, titleMatches lower title r.1 = false) →
        resolveTitle lower rules title = title)
      ∧ (∀ (pre : List (String × String)) (r : String × String)
          (post : List (String × String)),
          rules = pre ++ r :: post →
          (∀ r' ∈ pre, titleMatches lower title r'.1 = false) →
          titleMatches lower title r.1 = true →
          (r.1 ≠ "" → resolveTitle lower rules title = r.2)
          ∧ (r.1 = "" → resolveTitle lower rules title = title)) := by
  intro lower rules title
  refine ⟨resolveTitle_no_match lower rules title, ?_⟩
  intro pre r post heq hpre hr
  rw [heq]
  have h := resolveTitle_first_match lower title pre r post hpre hr
  constructor
  · intro hne
    rw [h, if_neg hne]
  · intro he
    rw [h, if_pos he]

/-- Claim C6 (amended, witness): the first matching rule in iteration order
wins, the match is case-insensitive, and a non-empty found keyword is
applied. -/
theorem c6_witness :
    resolveTitle asciiLower [("zz", "N1"), ("gym", "Sport")] "Morning Gym"
      = "Sport" :=
  ((c6_rule_resolution asciiLower [("zz", "N1"), ("gym", "Sport")]
      "Morning Gym").2
    [("zz", "N1")] ("gym", "Sport") [] rfl (by decide) (by decide)).1
    (by decide)

/-- Claim C7 (counterexample): with rules `x ↦ y` and `y ↦ z`, applying
Stage-1 resolution a second time to the labels produced by a first
application changes the label again (`x ↦ y ↦ z`). -/
theorem c7_counterexample :
    List.map AnalyzedEvent.title
        (processEvents asciiLower [("x", "y"), ("y", "z")]
          (processEvents asciiLower [("x", "y"), ("y", "z")]
            [⟨"x", 1, "#111111"⟩]))
      = ["z"]
    ∧ List.map AnalyzedEvent.title
        (processEvents asciiLower [("x", "y"), ("y", "z")]
          [⟨"x", 1, "#111111"⟩])
      = ["y"]
    ∧ ("z" : String) ≠ "y" := by
  refine ⟨by decide, by decide, by decide⟩

theorem resolveTitle_idem_of_fixed_targets (lower : String → String)
    (rules : List (String × String))
    (hfix : ∀ r ∈ rules, resolveTitle lower rules r.2 = r.2) (t : String) :
    resolveTitle lower rules (resolveTitle lower rules t)
      = resolveTitle lower rules t := by
  cases hf : rules.find? (fun r => titleMatches lower t r.1) with
  | none =>
    have ht : resolveTitle lower rules t = t := by
      unfold resolveTitle; rw [hf]
    rw [ht]
    exact ht
  | some r =>
    by_cases hr : r.1 = ""
    · have ht : resolveTitle lower rules t = t := by
        unfold resolveTitle
        simp only [hf]
        rw [if_pos hr]
      rw [ht]
      exact ht
    · have ht : resolveTitle lower rules t = r.2 := by
        unfold resolveTitle
        simp only [hf]
        rw [if_neg hr]
      rw [ht]
      exact hfix r (List.mem_of_find?_eq_some hf)

/-- Claim C7 (amended): Stage-1 resolution applied a second time to the
labels produced by a first application is the identity **provided** every
rule's target label is itself a fixed point of resolution.  Without that
proviso a second application can change labels (see the counterexample);
the engine itself avoids this by resolving only original titles, exactly
once. -/
theorem c7_resolution_idempotent_on_fixed_targets (lower : String → String)
    (rules : List (String × String))
    (hfix : ∀ r ∈ rules, resolveTitle lower rules r.2 = r.2) :
    ∀ evs : List AnalyzedEvent,
      processEvents lower rules (processEvents lower rules evs)
        = processEvents lower rules evs := by
  intro evs
  unfold processEvents
  rw [List.map_map]
  apply List.map_congr_left
  intro e _
  simp only [Function.comp]
  rw [resolveTitle_idem_of_fixed_targets lower rules hfix e.title]

/-- Claim C7 (amended, witness). -/
theorem c7_witness :
    processEvents asciiLower [("gym", "Gym")]
        (processEvents asciiLower [("gym", "Gym")]
          [⟨"Morning Gym", 1, "#808080"⟩])
      = processEvents asciiLower [("gym", "Gym")]
          [⟨"Morning Gym", 1, "#808080"⟩] :=
  c7_resolution_idempotent_on_fixed_targets asciiLower [("gym", "Gym")]
    (by decide) [⟨"Morning Gym", 1, "#808080"⟩]

/-! ## Rename/recolor mutator -/

theorem lookup_recolor (m : List (String × MapEntry)) (n c k : String) :
    lookupKey
        (m.map (fun q =>
          if q.2.name = n then (q.1, (⟨q.2.name, c⟩ : MapEntry)) else q)) k
      = Option.map (fun v => if v.name = n then (⟨v.name, c⟩ : MapEntry) else v)
          (lookupKey m k) := by
  induction m with
  | nil => rfl
  | cons p t ih =>
    by_cases hp : p.1 = k
    · by_cases hv : p.2.name = n
      · simp [lookupKey, hp, hv]
      · simp [lookupKey, hp, hv]
    · by_cases hv : p.2.name = n
      · simp [lookupKey, hp, hv, ih]
      · simp [lookupKey, hp, hv, ih]

/-- Claim C8 (counterexample): the propagation loop compares only the `name`
field (`newMappings[key].name === displayName`).  In the state
`{A ↦ {X, #111111}, X ↦ {"", #111111}}` both entries display as `X` (the
second through the empty-name fallback of C10), yet recoloring through `A`
alone repaints only `A`'s entry: the `X`-keyed entry keeps its old color
while still displaying as `X`. -/
theorem c8_counterexample :
    displayNameOf [("A", ⟨"X", "#111111"⟩), ("X", ⟨"", "#111111"⟩)] "X" = "X"
    ∧ lookupKey
        (handleUpdateProject
          [("A", ⟨"X", "#111111"⟩), ("X", ⟨"", "#111111"⟩)] ["A"] "X"
          "#222222") "X"
      = some ⟨"", "#111111"⟩
    ∧ displayNameOf
        (handleUpdateProject
          [("A", ⟨"X", "#111111"⟩), ("X", ⟨"", "#111111"⟩)] ["A"] "X"
          "#222222") "X"
      = "X"
    ∧ ("#111111" : String) ≠ "#222222" := by
  refine ⟨by decide, by decide, by decide, by decide⟩

/-- Claim C8 (amended): recolor propagation.  If original key `a` currently
displays as `n` and the mutator is called with only `a`, the same display
name `n`, and a new color `c`, then every mapping entry whose **`name`
field** is `n` (including entries for other keys merged into `n` by rename)
ends up with color `c`.  An entry that displays as `n` only through the
empty-name fallback — its key is `n` and its `name` field is empty — is not
repainted (see the counterexample). -/
theorem c8_recolor_propagation (m : List (String × MapEntry)) (a n c : String)
    (hd : displayNameOf m a = n) :
    ∀ (k : String) (e : MapEntry),
      lookupKey (handleUpdateProject m [a] n c) k = some e →
      e.name = n → e.color = c := by
  intro k e hlook hname
  unfold handleUpdateProject at hlook
  simp only [List.foldl_cons, List.foldl_nil] at hlook
  rw [hd, if_pos rfl] at hlook
  by_cases hk : k = a
  · subst hk
    rw [lookup_setKey_same] at hlook
    have he : e = ⟨n, c⟩ := (Option.some.inj hlook).symm
    rw [he]
  · rw [lookup_setKey_ne _ _ _ _ hk, lookup_recolor] at hlook
    cases hv : lookupKey m k with
    | none =>
      rw [hv] at hlook
      simp at hlook
    | some v =>
      rw [hv] at hlook
      simp only [Option.map_some'] at hlook
      have he : e = if v.name = n then (⟨v.name, c⟩ : MapEntry) else v :=
        (Option.some.inj hlook).symm
      by_cases hvn : v.name = n
      · rw [he, if_pos hvn]
      · exfalso
        rw [he, if_neg hvn] at hname
        exact hvn hname

/-- Claim C8 (witness): with `A` and `B` both mapped to `{X, #111111}`,
recoloring through `A` alone repaints `B`'s entry as well. -/
theorem c8_witness :
    lookupKey
        (handleUpdateProject
          [("A", ⟨"X", "#111111"⟩), ("B", ⟨"X", "#111111"⟩)] ["A"] "X"
          "#222222") "B"
      = some ⟨"X", "#222222"⟩
    ∧ (⟨"X", "#222222"⟩ : MapEntry).color = "#222222" :=
  ⟨by decide,
    c8_recolor_propagation
      [("A", ⟨"X", "#111111"⟩), ("B", ⟨"X", "#111111"⟩)] "A" "X" "#222222"
      (by decide) "B" ⟨"X", "#222222"⟩ (by decide) rfl⟩

/-! ## Stage 4: originalNames -/

theorem contribKeys_cons_pos (m : List (String × MapEntry)) (d : String)
    (p : String × OrigData) (t : List (String × OrigData))
    (hc : displayNameOf m p.1 = d) :
    contribKeys m d (p :: t) = p.1 :: contribKeys m d t := by
  simp [contribKeys, List.filter_cons, hc]

theorem contribKeys_cons_neg (m : List (String × MapEntry)) (d : String)
    (p : String × OrigData) (t : List (String × OrigData))
    (hc : displayNameOf m p.1 ≠ d) :
    contribKeys m d (p :: t) = contribKeys m d t := by
  simp [contribKeys, List.filter_cons, hc]

theorem stage4Step_lookup_same_some (m : List (String × MapEntry))
    (acc : List (String × DispData)) (p : String × OrigData) (d : String)
    (g : DispData) (hc : displayNameOf m p.1 = d)
    (h : lookupKey acc d = some g) :
    lookupKey (stage4Step m acc p) d
      = some ⟨g.duration + p.2.duration, displayColorOf m p.1 p.2.color,
          insName g.originalNames p.1⟩ := by
  unfold stage4Step
  rw [hc, h]
  exact lookup_setKey_same acc d _

theorem stage4Step_lookup_same_none (m : List (String × MapEntry))
    (acc : List (String × DispData)) (p : String × OrigData) (d : String)
    (hc : displayNameOf m p.1 = d) (h : lookupKey acc d = none) :
    lookupKey (stage4Step m acc p) d
      = some ⟨p.2.duration, displayColorOf m p.1 p.2.color, [p.1]⟩ := by
  unfold stage4Step
  rw [hc, h]
  exact lookup_setKey_same acc d _

theorem stage4_foldl_onames_some (m : List (String × MapEntry)) (d : String) :
    ∀ (l : List (String × OrigData)) (acc : List (String × DispData))
      (g : DispData), lookupKey acc d = some g →
      ∃ g', lookupKey (l.foldl (stage4Step m) acc) d = some g'
        ∧ g'.originalNames
            = List.foldl insName g.originalNames (contribKeys m d l) := by
  intro l
  induction l with
  | nil =>
    intro acc g h
    exact ⟨g, h, by simp [contribKeys]⟩
  | cons p t ih =>
    intro acc g h
    by_cases hc : displayNameOf m p.1 = d
    · have hstep := stage4Step_lookup_same_some m acc p d g hc h
      obtain ⟨g', hg', ho⟩ := ih (stage4Step m acc p) _ hstep
      refine ⟨g', hg', ?_⟩
      rw [ho, contribKeys_cons_pos m d p t hc, List.foldl_cons]
    · have hstep : lookupKey (stage4Step m acc p) d = some g := by
        rw [stage4Step_lookup_other m acc p d hc]
        exact h
      obtain ⟨g', hg', ho⟩ := ih (stage4Step m acc p) g hstep
      refine ⟨g', hg', ?_⟩
      rw [ho, contribKeys_cons_neg m d p t hc]

theorem stage4_foldl_onames_none (m : List (String × MapEntry)) (d : String) :
    ∀ (l : List (String × OrigData)) (acc : List (String × DispData)),
      lookupKey acc d = none →
      (contribKeys m d l = []
        ∧ lookupKey (l.foldl (stage4Step m) acc) d = none)
      ∨ (∃ k ks, contribKeys m d l = k :: ks
          ∧ ∃ g', lookupKey (l.foldl (stage4Step m) acc) d = some g'
            ∧ g'.originalNames = List.foldl insName [k] ks) := by
  intro l
  induction l with
  | nil =>
    intro acc h
    left
    exact ⟨by simp [contribKeys], h⟩
  | cons p t ih =>
    intro acc h
    by_cases hc : displayNameOf m p.1 = d
    · have hstep := stage4Step_lookup_same_none m acc p d hc h
      obtain ⟨g', hg', ho⟩ := stage4_foldl_onames_some m d t _ _ hstep
      right
      refine ⟨p.1, contribKeys m d t, contribKeys_cons_pos m d p t hc,
        g', hg', ?_⟩
      rw [ho]
    · have hstep : lookupKey (stage4Step m acc p) d = none := by
        rw [stage4Step_lookup_other m acc p d hc]
        exact h
      rcases ih (stage4Step m acc p) hstep with ⟨hck, hl⟩ | ⟨k, ks, hck, hres⟩
      · left
        exact ⟨by rw [contribKeys_cons_neg m d p t hc, hck], hl⟩
      · right
        exact ⟨k, ks, by rw [contribKeys_cons_neg m d p t hc, hck], hres⟩

theorem foldl_insName_of_nodup :
    ∀ (ks ns : List String), (∀ x ∈ ks, x ∉ ns) → ks.Nodup →
      List.foldl insName ns ks = ns ++ ks := by
  intro ks
  induction ks with
  | nil => intro ns _ _; simp
  | cons k t ih =>
    intro ns hdisj hnd
    have hkn : k ∉ ns := hdisj k (List.mem_cons_self _ _)
    have hins : insName ns k = ns ++ [k] := by
      unfold insName
      rw [if_neg]
      simpa using hkn
    rw [List.foldl_cons, hins,
      ih (ns ++ [k]) ?_ (List.Nodup.of_cons hnd), List.append_assoc]
    · rfl
    · intro x hx hmem
      rcases List.mem_append.mp hmem with h2 | h2
      · exact hdisj x (List.mem_cons_of_mem _ hx) h2
      · have : x = k := by simpa using h2
        subst this
        exact (List.nodup_cons.mp hnd).1 hx

theorem contribKeys_nodup (m : List (String × MapEntry)) (d : String)
    (l : List (String × OrigData)) (h : (l.map Prod.fst).Nodup) :
    (contribKeys m d l).Nodup :=
  List.Nodup.filter _ h

/-- The `originalNames` of each Stage-4 entry are exactly the original keys
that display to that entry's name, in iteration order. -/
theorem stage4_onames_exact (m : List (String × MapEntry))
    (orig : List (String × OrigData)) (horig : (orig.map Prod.fst).Nodup)
    (d : String) (g : DispData) (h : lookupKey (stage4 m orig) d = some g) :
    g.originalNames = contribKeys m d orig ∧ g.originalNames ≠ [] := by
  rcases stage4_foldl_onames_none m d orig [] rfl with ⟨_, hnone⟩
    | ⟨k, ks, hck, g', hg', ho⟩
  · rw [stage4] at h
    rw [h] at hnone
    exact absurd hnone (by simp)
  · rw [stage4] at h
    rw [h] at hg'
    have hgg : g = g' := Option.some.inj hg'
    subst hgg
    have hnd : (k :: ks).Nodup := by
      rw [← hck]
      exact contribKeys_nodup m d orig horig
    have hfold : List.foldl insName [k] ks = [k] ++ ks := by
      refine foldl_insName_of_nodup ks [k] ?_ (List.Nodup.of_cons hnd)
      intro x hx hmem
      have : x = k := by simpa using hmem
      subst this
      exact (List.nodup_cons.mp hnd).1 hx
    refine ⟨?_, ?_⟩
    · rw [ho, hfold, hck]
      rfl
    · rw [ho, hfold]
      simp

theorem stage5Go_forall2 (m : List (String × MapEntry)) (ps : List Project) :
    ∀ (used : List String) (idx : Nat),
      List.Forall₂ sameButColor ps (stage5Go m used idx ps) := by
  induction ps with
  | nil => intro used idx; exact List.Forall₂.nil
  | cons p t ih =>
    intro used idx
    unfold stage5Go
    by_cases he : eligibleB m p
    · rw [if_pos he]
      by_cases h : skipUsed used idx < COLORS.length
      · rw [dif_pos h]
        exact List.Forall₂.cons ⟨rfl, rfl, rfl⟩ (ih _ _)
      · rw [dif_neg h]
        exact List.Forall₂.cons ⟨rfl, rfl, rfl⟩ (ih _ _)
    · rw [if_neg he]
      exact List.Forall₂.cons ⟨rfl, rfl, rfl⟩ (ih _ _)

/-- Claim C9: `originalNames` invariant.  Every output Project has a
non-empty, duplicate-free `originalNames` equal to the list of original
aggregation keys that resolve (via the mapping, with JS-falsy fallback to
the key itself) to the Project's name, in order of first appearance; and
Stage 5 changes only project colors, preserving name, duration and
`originalNames` positionally. -/
theorem c9_originalNames_invariant :
    ∀ (lower : String → String) (evs : List AnalyzedEvent)
      (rules : List (String × String)) (m : List (String × MapEntry))
      (ign : List String),
      (∀ p ∈ displayProjectsEvents lower evs rules m ign,
        p.originalNames ≠ []
        ∧ p.originalNames
            = contribKeys m p.name
                (stage3 ign (processEvents lower rules evs))
        ∧ p.originalNames.Nodup)
      ∧ List.Forall₂ sameButColor
          (finalProjects
            (stage4 m (stage3 ign (processEvents lower rules evs))))
          (displayProjectsEvents lower evs rules m ign) := by
  intro lower evs rules m ign
  constructor
  · intro p hp
    obtain ⟨p', hp', hs⟩ :=
      stage5Go_shape m
        (finalProjects
          (stage4 m (stage3 ign (processEvents lower rules evs))))
        _ _ p hp
    obtain ⟨⟨d, g⟩, hmem, hpe⟩ := List.mem_map.mp hp'
    have hlook :
        lookupKey (stage4 m (stage3 ign (processEvents lower rules evs))) d
          = some g :=
      mem_lookup_of_nodup _ (stage4_keys_nodup m _) d g hmem
    obtain ⟨hexact, hne⟩ :=
      stage4_onames_exact m (stage3 ign (processEvents lower rules evs))
        (stage3_keys_nodup ign (processEvents lower rules evs)) d g hlook
    have hpn : p.name = d := by
      rw [hs.1, ← hpe]
    have hpo : p.originalNames = g.originalNames := by
      rw [hs.2.2, ← hpe]
    refine ⟨?_, ?_, ?_⟩
    · rw [hpo]; exact hne
    · rw [hpo, hpn, hexact]
    · rw [hpo, hexact]
      exact contribKeys_nodup m d _ (stage3_keys_nodup ign _)
  · exact stage5Go_forall2 m _ _ _

/-- Claim C9 (witness). -/
theorem c9_witness :
    (⟨"A", 1, "#123456", ["A"]⟩ : Project).originalNames ≠ []
    ∧ (⟨"A", 1, "#123456", ["A"]⟩ : Project).originalNames
        = contribKeys [] (⟨"A", 1, "#123456", ["A"]⟩ : Project).name
            (stage3 [] (processEvents asciiLower [] [⟨"A", 1, "#123456"⟩]))
    ∧ (⟨"A", 1, "#123456", ["A"]⟩ : Project).originalNames.Nodup :=
  (c9_originalNames_invariant asciiLower [⟨"A", 1, "#123456"⟩] [] [] []).1
    ⟨"A", 1, "#123456", ["A"]⟩ (by decide)

/-! ## Empty-string mapping fields -/

/-- Claim C10: empty-string mapping fields act as absent.  An entry with an
empty `displayName` resolves to the original key itself; an entry with an
empty `color` resolves to the carried color and still counts as "no explicit
user color mapping" for Stage-5 eligibility. -/
theorem c10_empty_fields_act_as_absent :
    ∀ (m : List (String × MapEntry)) (k : String) (e : MapEntry),
      lookupKey m k = some e →
      (e.name = "" → displayNameOf m k = k)
      ∧ (e.color = "" →
          (∀ carried, displayColorOf m k carried = carried)
          ∧ ∀ p : Project, p.originalNames.head? = some k →
              p.color = "#808080" → eligibleB m p = true) := by
  intro m k e h
  constructor
  · intro hn
    unfold displayNameOf
    rw [h]
    simp [jsOr, hn]
  · intro hc
    constructor
    · intro carried
      unfold displayColorOf
      rw [h]
      simp [jsOr, hc]
    · intro p hhead hcol
      simp [eligibleB, hhead, h, hc, hcol]

/-- Claim C10 (witness): a mapping entry `A ↦ {name:"", color:""}` behaves
exactly like no mapping. -/
theorem c10_witness :
    displayNameOf [("A", ⟨"", ""⟩)] "A" = "A"
    ∧ displayColorOf [("A", ⟨"", ""⟩)] "A" "#ff0000" = "#ff0000"
    ∧ eligibleB [("A", ⟨"", ""⟩)] ⟨"A", 1, "#808080", ["A"]⟩ = true :=
  ⟨(c10_empty_fields_act_as_absent [("A", ⟨"", ""⟩)] "A" ⟨"", ""⟩
      (by decide)).1 rfl,
    ((c10_empty_fields_act_as_absent [("A", ⟨"", ""⟩)] "A" ⟨"", ""⟩
      (by decide)).2 rfl).1 ("#ff0000"),
    ((c10_empty_fields_act_as_absent [("A", ⟨"", ""⟩)] "A" ⟨"", ""⟩
      (by decide)).2 rfl).2 ⟨"A", 1, "#808080", ["A"]⟩ rfl rfl⟩

/-! ## Stage 5: the palette fallback -/

theorem skipUsed_eq (used : List String) (idx : Nat) :
    skipUsed used idx
      = if h : idx < COLORS.length then
          if used.contains (COLORS.get ⟨idx, h⟩) then skipUsed used (idx + 1)
          else idx
        else idx := by
  conv_lhs => rw [skipUsed]

theorem skipUsed_spec (used : List String) (idx : Nat) :
    idx ≤ skipUsed used idx
    ∧ (∀ h : skipUsed used idx < COLORS.length,
        COLORS.get ⟨skipUsed used idx, h⟩ ∉ used)
    ∧ (∀ i (hi : i < COLORS.length), idx ≤ i → i < skipUsed used idx →
        COLORS.get ⟨i, hi⟩ ∈ used) := by
  have main : ∀ (fuel i : Nat), COLORS.length - i ≤ fuel →
      i ≤ skipUsed used i
      ∧ (∀ h : skipUsed used i < COLORS.length,
          COLORS.get ⟨skipUsed used i, h⟩ ∉ used)
      ∧ (∀ j (hj : j < COLORS.length), i ≤ j → j < skipUsed used i →
          COLORS.get ⟨j, hj⟩ ∈ used) := by
    intro fuel
    induction fuel with
    | zero =>
      intro i hf
      have hge : ¬ i < COLORS.length := by omega
      rw [skipUsed_eq, dif_neg hge]
      refine ⟨Nat.le_refl i, ?_, ?_⟩
      · intro h; exact absurd h hge
      · intro j hj hle hlt; omega
    | succ n ih =>
      intro i hf
      by_cases h1 : i < COLORS.length
      · by_cases h2 : used.contains (COLORS.get ⟨i, h1⟩)
        · have heq : skipUsed used i = skipUsed used (i + 1) := by
            rw [skipUsed_eq, dif_pos h1, if_pos h2]
          obtain ⟨hge, hnot, hskip⟩ := ih (i + 1) (by omega)
          rw [heq]
          refine ⟨by omega, hnot, ?_⟩
          intro j hj hle hlt
          by_cases hji : j = i
          · subst hji
            simpa using h2
          · exact hskip j hj (by omega) hlt
        · have heq : skipUsed used i = i := by
            rw [skipUsed_eq, dif_pos h1, if_neg h2]
          rw [heq]
          refine ⟨Nat.le_refl i, ?_, ?_⟩
          · intro h hmem
            exact h2 (by simpa using hmem)
          · intro j hj hle hlt; omega
      · have heq : skipUsed used i = i := by
          rw [skipUsed_eq, dif_neg h1]
        rw [heq]
        refine ⟨Nat.le_refl i, ?_, ?_⟩
        · intro h; exact absurd h h1
        · intro j hj hle hlt; omega
  exact main (COLORS.length - idx) idx (Nat.le_refl _)

theorem eligibleB_color (m : List (String × MapEntry)) (p : Project)
    (h : eligibleB m p = true) : p.color = "#808080" := by
  simp only [eligibleB, Bool.and_eq_true, beq_iff_eq] at h
  exact h.2

theorem sentinel_not_palette : ("#808080" : String) ∉ COLORS := by decide

theorem assignedColors_cons_ne (p q : Project) (t rest : List Project)
    (h : p.color ≠ q.color) :
    assignedColors (p :: t) (q :: rest) = q.color :: assignedColors t rest := by
  simp [assignedColors, List.zip_cons_cons, List.filter_cons, h]

theorem assignedColors_cons_eq (p q : Project) (t rest : List Project)
    (h : p.color = q.color) :
    assignedColors (p :: t) (q :: rest) = assignedColors t rest := by
  simp [assignedColors, List.zip_cons_cons, List.filter_cons, h]

theorem stage5Go_colorRel (m : List (String × MapEntry)) (ps : List Project) :
    ∀ (used : List String) (idx : Nat),
      List.Forall₂ (stage5ColorRel m) ps (stage5Go m used idx ps) := by
  induction ps with
  | nil => intro used idx; exact List.Forall₂.nil
  | cons p t ih =>
    intro used idx
    unfold stage5Go
    by_cases he : eligibleB m p = true
    · rw [if_pos he]
      by_cases h : skipUsed used idx < COLORS.length
      · rw [dif_pos h]
        refine List.Forall₂.cons ⟨?_, ?_⟩ (ih _ _)
        · intro hf
          rw [hf] at he
          exact absurd he (by decide)
        · right
          exact ⟨skipUsed used idx, h, rfl⟩
      · rw [dif_neg h]
        exact List.Forall₂.cons ⟨fun _ => rfl, Or.inl rfl⟩ (ih _ _)
    · rw [if_neg he]
      exact List.Forall₂.cons ⟨fun _ => rfl, Or.inl rfl⟩ (ih _ _)

theorem stage5Go_assigned (m : List (String × MapEntry)) (ps : List Project) :
    ∀ (used : List String) (idx : Nat),
      (assignedColors ps (stage5Go m used idx ps)).Nodup
      ∧ ∀ c ∈ assignedColors ps (stage5Go m used idx ps),
          c ∉ used ∧ c ∈ COLORS := by
  induction ps with
  | nil =>
    intro used idx
    constructor
    · simp [assignedColors, stage5Go]
    · intro c hc
      simp [assignedColors, stage5Go] at hc
  | cons p t ih =>
    intro used idx
    unfold stage5Go
    by_cases he : eligibleB m p = true
    · rw [if_pos he]
      by_cases h : skipUsed used idx < COLORS.length
      · rw [dif_pos h]
        have hpc : p.color = "#808080" := eligibleB_color m p he
        have hcCOLORS : COLORS.get ⟨skipUsed used idx, h⟩ ∈ COLORS :=
          List.get_mem _ _ _
        have hcne : p.color
            ≠ ({ p with color := COLORS.get ⟨skipUsed used idx, h⟩ } :
                Project).color := by
          intro heq
          rw [hpc] at heq
          exact sentinel_not_palette (heq ▸ hcCOLORS)
        rw [assignedColors_cons_ne p _ t _ hcne]
        obtain ⟨hnd, hmem⟩ :=
          ih (used ++ [COLORS.get ⟨skipUsed used idx, h⟩]) (skipUsed used idx + 1)
        have hcnotused : COLORS.get ⟨skipUsed used idx, h⟩ ∉ used :=
          (skipUsed_spec used idx).2.1 h
        constructor
        · refine List.nodup_cons.mpr ⟨?_, hnd⟩
          intro hinm
          exact (hmem _ hinm).1 (List.mem_append_right _ (by simp))
        · intro x hx
          rcases List.mem_cons.mp hx with hx | hx
          · subst hx
            exact ⟨hcnotused, hcCOLORS⟩
          · obtain ⟨hnu, hin⟩ := hmem x hx
            exact ⟨fun hmemused => hnu (List.mem_append_left _ hmemused), hin⟩
      · rw [dif_neg h]
        rw [assignedColors_cons_eq p p t _ rfl]
        exact ih used (skipUsed used idx)
    · rw [if_neg he]
      rw [assignedColors_cons_eq p p t _ rfl]
      exact ih used idx

theorem find?_eq_find?_drop {α : Type} (p : α → Bool) :
    ∀ (i : Nat) (l : List α),
      (∀ j (hj : j < l.length), j < i → p (l.get ⟨j, hj⟩) = false) →
      l.find? p = (l.drop i).find? p := by
  intro i
  induction i with
  | zero => intro l _; rfl
  | succ n ih =>
    intro l hl
    cases l with
    | nil => rfl
    | cons a t =>
      have ha : p a = false := hl 0 (by simp) (by omega)
      rw [List.drop_succ_cons,
        show List.find? p (a :: t) = List.find? p t from by
          simp [List.find?_cons, ha]]
      refine ih t ?_
      intro j hj hlt
      have := hl (j + 1) (by simpa using Nat.succ_lt_succ hj)
        (Nat.succ_lt_succ hlt)
      simpa using this

theorem specNextColor_eq_skipUsed (used : List String) (idx : Nat)
    (hinv : ∀ i (hi : i < COLORS.length), i < idx →
      COLORS.get ⟨i, hi⟩ ∈ used) :
    specNextColor used
      = if h : skipUsed used idx < COLORS.length
        then some (COLORS.get ⟨skipUsed used idx, h⟩)
        else none := by
  have h1 : specNextColor used
      = (COLORS.drop idx).find? (fun c => !(used.contains c)) := by
    unfold specNextColor
    refine find?_eq_find?_drop _ idx COLORS ?_
    intro j hj hlt
    have := hinv j hj hlt
    simpa using this
  rw [h1]
  have main : ∀ (fuel i : Nat), COLORS.length - i ≤ fuel →
      (COLORS.drop i).find? (fun c => !(used.contains c))
        = if h : skipUsed used i < COLORS.length
          then some (COLORS.get ⟨skipUsed used i, h⟩) else none := by
    intro fuel
    induction fuel with
    | zero =>
      intro i hf
      have hge : COLORS.length ≤ i := by omega
      rw [List.drop_eq_nil_of_le hge]
      have heq : skipUsed used i = i := by
        rw [skipUsed_eq, dif_neg (by omega)]
      rw [heq, dif_neg (by omega)]
      rfl
    | succ n ih =>
      intro i hf
      by_cases hlt : i < COLORS.length
      · rw [List.drop_eq_getElem_cons hlt]
        by_cases h2 : used.contains (COLORS.get ⟨i, hlt⟩)
        · have heq : skipUsed used i = skipUsed used (i + 1) := by
            rw [skipUsed_eq, dif_pos hlt, if_pos h2]
          have h2' : used.contains (COLORS[i]) = true := h2
          have hfind : List.find? (fun c => !(used.contains c))
              (COLORS[i] :: COLORS.drop (i + 1))
              = List.find? (fun c => !(used.contains c))
                  (COLORS.drop (i + 1)) :=
            List.find?_cons_of_neg _ (by simpa using h2')
          rw [hfind, heq]
          exact ih (i + 1) (by omega)
        · have heq : skipUsed used i = i := by
            rw [skipUsed_eq, dif_pos hlt, if_neg h2]
          have h2' : used.contains (COLORS[i]) = false := by
            simpa using h2
          have hfind : List.find? (fun c => !(used.contains c))
              (COLORS[i] :: COLORS.drop (i + 1)) = some COLORS[i] :=
            List.find?_cons_of_pos _ (by simpa using h2')
          rw [hfind, heq, dif_pos hlt]
          exact rfl
      · have hge : COLORS.length ≤ i := by omega
        rw [List.drop_eq_nil_of_le hge]
        have heq : skipUsed used i = i := by
          rw [skipUsed_eq, dif_neg hlt]
        rw [heq, dif_neg hlt]
        rfl
  exact main (COLORS.length - idx) idx (Nat.le_refl _)

theorem stage5Go_eq_specGo (m : List (String × MapEntry)) (ps : List Project) :
    ∀ (used : List String) (idx : Nat),
      (∀ i (hi : i < COLORS.length), i < idx → COLORS.get ⟨i, hi⟩ ∈ used) →
      stage5Go m used idx ps = stage5SpecGo m used ps := by
  induction ps with
  | nil => intro used idx _; rfl
  | cons p t ih =>
    intro used idx hinv
    have hspec := specNextColor_eq_skipUsed used idx hinv
    unfold stage5Go stage5SpecGo
    by_cases he : eligibleB m p = true
    · rw [if_pos he, if_pos he]
      by_cases h : skipUsed used idx < COLORS.length
      · rw [dif_pos h] at hspec
        rw [dif_pos h, hspec]
        refine congrArg (List.cons _) (ih _ (skipUsed used idx + 1) ?_)
        intro i hi hlt
        rcases Nat.lt_succ_iff_lt_or_eq.mp hlt with hlt2 | heq2
        · by_cases hidx : i < idx
          · exact List.mem_append_left _ (hinv i hi hidx)
          · exact List.mem_append_left _
              ((skipUsed_spec used idx).2.2 i hi (by omega) hlt2)
        · have hget : COLORS.get ⟨i, hi⟩ = COLORS.get ⟨skipUsed used idx, h⟩ := by
            congr 1
            exact Fin.ext heq2
          rw [hget]
          exact List.mem_append_right _ (by simp)
      · rw [dif_neg h] at hspec
        rw [dif_neg h, hspec]
        refine congrArg (List.cons p) (ih used (skipUsed used idx) ?_)
        intro i hi hlt
        by_cases hidx : i < idx
        · exact hinv i hi hidx
        · exact (skipUsed_spec used idx).2.2 i hi (by omega) hlt
    · rw [if_neg he, if_neg he]
      exact congrArg (List.cons p) (ih used idx hinv)

/-- Claim C4: deterministic Stage-5 color fallback.  Positionally, a
non-eligible project (first key has a user color mapping or the color is not
the `#808080` sentinel) is returned unchanged and every project is either
unchanged or recolored with a palette entry; the substituted colors are
pairwise distinct, drawn from the palette, and never collide with any
pre-fallback project color (in particular an exhausted palette leaves the
sentinel in place); the pass is a pure function, so identical inputs give
identical outputs; and it coincides with the specification's description of
"assign the next unused palette color, skipping colors already in use"
(`stage5Spec`). -/
theorem c4_stage5_deterministic_fallback :
    ∀ (m : List (String × MapEntry)) (ps : List Project),
      List.Forall₂ (stage5ColorRel m) ps (stage5 m ps)
      ∧ (assignedColors ps (stage5 m ps)).Nodup
      ∧ (∀ c ∈ assignedColors ps (stage5 m ps),
          c ∈ COLORS ∧ c ∉ ps.map Project.color)
      ∧ stage5 m ps = stage5Spec m ps := by
  intro m ps
  obtain ⟨hnd, hmem⟩ := stage5Go_assigned m ps (ps.map Project.color) 0
  refine ⟨stage5Go_colorRel m ps _ _, hnd, ?_, ?_⟩
  · intro c hc
    obtain ⟨hnu, hin⟩ := hmem c hc
    exact ⟨hin, hnu⟩
  · exact stage5Go_eq_specGo m ps (ps.map Project.color) 0 (by omega)

/-- Claim C4 (witness): on a single unmapped sentinel-colored project the
substituted color is the first palette entry, which is in the palette and
distinct from every pre-fallback color. -/
theorem c4_witness :
    ("#0088FE" : String) ∈ COLORS
    ∧ ("#0088FE" : String)
        ∉ List.map Project.color [(⟨"A", 1, "#808080", ["A"]⟩ : Project)] :=
  (c4_stage5_deterministic_fallback [] [⟨"A", 1, "#808080", ["A"]⟩]).2.2.1
    "#0088FE"
    (by simp [stage5, stage5Go, assignedColors, eligibleB, skipUsed_eq,
      COLORS, lookupKey])

end ChronoAI
